import Mathlib

/-
Verification development for a single-file C++ MapReduce pipeline
(src/main.cpp).  The file content is modelled as a `List Char`; the
C++ `std::ifstream` read state (position, eofbit, failbit) is modelled
explicitly, because `SplitFileIntoSections` and `MapSection` observe
`tellg`/`getline` failure states.
-/

namespace MapReduce

/-- Error kinds thrown by the pipeline: `std::invalid_argument("Invalid
argument")`, `std::runtime_error("Can't open file")` and
`std::runtime_error("File is empty")` are observably distinct (their
`what()` messages differ). -/
inductive Err where
  | invalidArgument
  | ioError
  | emptyInput
deriving DecidableEq, Repr

/-- Model of the observable `std::ifstream` read state: the read position
and the `eofbit` / `failbit` flags. -/
structure IStream where
  pos : Nat
  eof : Bool
  fl : Bool
deriving DecidableEq, Repr

/-- A freshly opened input stream. -/
def initStream : IStream := ⟨0, false, false⟩

/-- Index of the first newline character in `l`, reporting positions
shifted by `i` (helper for `findNl`). -/
def findNlAux : List Char → Nat → Option Nat
  | [], _ => none
  | c :: cs, i => if c = '\n' then some i else findNlAux cs (i + 1)

/-- Index of the first `'\n'` at or after position `p` in the file. -/
def findNl (f : List Char) (p : Nat) : Option Nat :=
  findNlAux (f.drop p) p

/-- The substring of the file from byte `a` (inclusive) to `b`
(exclusive), as a string. -/
def sliceStr (f : List Char) (a b : Nat) : String :=
  ⟨(f.drop a).take (b - a)⟩

/-- Model of `std::getline(file, line)`: the sentry fails (setting
`failbit`) if `failbit` or `eofbit` is set; otherwise characters are read
up to and including the next `'\n'`; if end of file is reached first,
`eofbit` is set, and additionally `failbit` if no character was read. -/
def getline (f : List Char) (st : IStream) : Option String × IStream :=
  if st.fl || st.eof then
    (none, { st with fl := true })
  else if st.pos < f.length then
    match findNl f st.pos with
    | some j => (some (sliceStr f st.pos j), { st with pos := j + 1 })
    | none => (some (sliceStr f st.pos f.length), ⟨f.length, true, st.fl⟩)
  else
    (none, { st with eof := true, fl := true })

/-- Model of `tellg()`: returns `-1` if `failbit` is set; if `eofbit` is
set the sentry sets `failbit` and it returns `-1`; otherwise it returns
the current position. -/
def tellg (st : IStream) : Int × IStream :=
  if st.fl then (-1, st)
  else if st.eof then (-1, { st with fl := true })
  else ((st.pos : Int), st)

/-- Model of `seekg(t)`: clears `eofbit` first; a set `failbit` makes the
sentry fail (no seek); seeking to a negative position fails, any
non-negative position (even past end of file) succeeds. -/
def seekg (t : Int) (st : IStream) : IStream :=
  let st1 : IStream := { st with eof := false }
  if st1.fl then st1
  else if t < 0 then { st1 with fl := true }
  else { st1 with pos := t.toNat }

/-- The loop of `SplitFileIntoSections`: for `cnt` iterations starting at
index `i`, seek to `ss * i`, read one line, and record `tellg()`. -/
def splitLoop (f : List Char) (ss : Nat) : Nat → Nat → IStream → List Int × IStream
  | _, 0, st => ([], st)
  | i, cnt + 1, st =>
    let st1 := seekg ((ss * i : Nat) : Int) st
    let r2 := getline f st1
    let r3 := tellg r2.2
    let rest := splitLoop f ss (i + 1) cnt r3.2
    (r3.1 :: rest.1, rest.2)

/-- Model of `SplitFileIntoSections(input_file_path, num_sections)`.  The
file argument is `none` when the file cannot be opened. -/
def SplitFileIntoSections (path : String) (file : Option (List Char)) (n : Int) :
    Except Err (List Int) :=
  if path = "" ∨ n ≤ 0 then .error .invalidArgument
  else
    match file with
    | none => .error .ioError
    | some f =>
      if f.length = 0 then .error .emptyInput
      else
        .ok ((0 : Int) ::
          ((splitLoop f (f.length / n.toNat) 1 (n.toNat - 1) initStream).1
            ++ [(f.length : Int)]))

/-- The read loop of `MapSection`: `while (tellg() < end_pos &&
getline(file, line))`, appending `map_func(line)` each iteration.  The
fuel argument bounds the iteration count; `file.length + 1` always
suffices because each successful `getline` strictly advances the
position. -/
def mapLoop (f : List Char) (endPos : Int) (fn : String → List String) :
    Nat → IStream → List String
  | 0, _ => []
  | fuel + 1, st =>
    let r1 := tellg st
    if r1.1 < endPos then
      match getline f r1.2 with
      | (some line, st2) => fn line ++ mapLoop f endPos fn fuel st2
      | (none, _) => []
    else []

/-- Model of `MapSection(input_file_path, start_pos, end_pos, map_func,
output_list)`; the produced `output_list` is returned.  The map function
is `none` when the `std::function` is unset. -/
def MapSection (path : String) (file : Option (List Char)) (startPos endPos : Int)
    (mapFn : Option (String → List String)) : Except Err (List String) :=
  if path = "" then .error .invalidArgument
  else
    match mapFn with
    | none => .error .invalidArgument
    | some fn =>
      match file with
      | none => .error .ioError
      | some f => .ok (mapLoop f endPos fn (f.length + 1) (seekg startPos initStream))

/-- Lexicographic comparison of character lists, the order used by
`std::less<std::string>` (byte-wise lexicographic). -/
def charsLtB : List Char → List Char → Bool
  | _, [] => false
  | [], _ :: _ => true
  | a :: as, b :: bs =>
    if a < b then true
    else if b < a then false
    else charsLtB as bs

/-- Lexicographic comparison of strings (the `std::map` key order). -/
def strLtB (a b : String) : Bool := charsLtB a.data b.data

/-- Insertion of one occurrence into the ordered key map
(`grouped_results[item].push_back(item)` on a `std::map`): keys are kept
in ascending lexicographic order, an existing key has the occurrence
appended to its list. -/
def insertOcc (x : String) : List (String × List String) → List (String × List String)
  | [] => [(x, [x])]
  | (k, v) :: rest =>
    if strLtB x k then (x, [x]) :: (k, v) :: rest
    else if x = k then (k, v ++ [x]) :: rest
    else (k, v) :: insertOcc x rest

/-- Grouping a flat item sequence into the ordered key map. -/
def groupList (items : List String) : List (String × List String) :=
  items.foldl (fun m x => insertOcc x m) []

/-- The `grouped_results` map built by `Shuffle`: all mapper outputs in
mapper order, each in emission order. -/
def groupAll (maps : List (List String)) : List (String × List String) :=
  groupList maps.flatten

/-- Appending a group to bucket `j`
(`shuffle_results[j].insert(end, group.begin(), group.end())`). -/
def appendAt : List (List String) → Nat → List String → List (List String)
  | [], _, _ => []
  | b :: bs, 0, g => (b ++ g) :: bs
  | b :: bs, j + 1, g => b :: appendAt bs j g

/-- The distribution loop of `Shuffle`: group number `i` (in ascending
key order) is appended to bucket `i % r`. -/
def distGo : List (List String) → Nat → Nat → List (List String) → List (List String)
  | [], _, _, acc => acc
  | g :: gs, i, r, acc => distGo gs (i + 1) r (appendAt acc (i % r) g)

/-- Model of `Shuffle(map_results, num_reducers)`. -/
def Shuffle (maps : List (List String)) (r : Int) : Except Err (List (List String)) :=
  if maps = [] ∨ r ≤ 0 then .error .invalidArgument
  else
    .ok (distGo ((groupAll maps).map Prod.snd) 0 r.toNat
          (List.replicate r.toNat []))

/-- The content of bucket `j` as distributed by `distGo` over groups
starting at counter value `i`: the concatenation of the groups whose
counter value is congruent to `j` modulo `r`. -/
def selFrom : List (List String) → Nat → Nat → Nat → List String
  | [], _, _, _ => []
  | g :: gs, i, r, j => (if i % r = j then g else []) ++ selFrom gs (i + 1) r j

/-- Model of `ReduceContainer(input_list, reduce_func, output_file_name)`.
`canOpen` tells whether the output artifact can be opened for writing and
`prev` is the artifact's prior content (`none` when absent); the second
component of the result is the artifact content afterwards. -/
def ReduceContainer (bucket : List String) (fn : Option (List String → List String))
    (name : String) (canOpen : Bool) (prev : Option (List String)) :
    Except Err Unit × Option (List String) :=
  if bucket = [] ∨ fn.isNone = true ∨ name = "" then (.error .invalidArgument, prev)
  else
    match fn with
    | none => (.error .invalidArgument, prev)
    | some rf =>
      if canOpen then (.ok (), some (rf bucket)) else (.error .ioError, prev)

/-- The built-in map function of `main`: wraps the line into a
one-element list. -/
def idMap : String → List String := fun line => [line]

/-- The built-in reduce function of `main`: passes the bucket through. -/
def idReduce : List String → List String := fun l => l

/-- Output artifact name for reducer `i`. -/
def outputName (i : Nat) : String := "output_" ++ toString i ++ ".txt"

/-- The mapping phase of `main`: worker `i` runs `MapSection` on byte
range `[positions[i], positions[i+1])` with the built-in map function. -/
def mapAllGo (path : String) (file : Option (List Char)) (positions : List Int) :
    Nat → Nat → Except Err (List (List String))
  | _, 0 => .ok []
  | i, cnt + 1 => do
    let res ← MapSection path file (positions.getD i 0) (positions.getD (i + 1) 0)
      (some idMap)
    let rest ← mapAllGo path file positions (i + 1) cnt
    .ok (res :: rest)

/-- One reducer worker of `main`: `ReduceContainer` on a fresh artifact
with the built-in reduce function; returns the artifact content. -/
def reduceRun (bucket : List String) (name : String) : Except Err (List String) :=
  match ReduceContainer bucket (some idReduce) name true none with
  | (.ok _, some art) => .ok art
  | (.ok _, none) => .ok []
  | (.error e, _) => .error e

/-- The reducing phase of `main`: worker `i` reduces bucket `i` into
artifact `output_<i>.txt`. -/
def reduceAllGo (buckets : List (List String)) : Nat → Nat → Except Err (List (List String))
  | _, 0 => .ok []
  | i, cnt + 1 => do
    let art ← reduceRun (buckets.getD i []) (outputName i)
    let rest ← reduceAllGo buckets (i + 1) cnt
    .ok (art :: rest)

/-- The pipeline run by `main` after argument parsing: sectioning,
mapping, shuffling, reducing.  A worker exception is a pipeline failure
(in the real program it terminates the process).  On success the result
is the list of artifact line sequences. -/
def pipeline (path : String) (file : Option (List Char)) (mnum rnum : Int) :
    Except Err (List (List String)) := do
  let positions ← SplitFileIntoSections path file mnum
  let mapResults ← mapAllGo path file positions 0 mnum.toNat
  let buckets ← Shuffle mapResults rnum
  reduceAllGo buckets 0 rnum.toNat

/-- Observable outcome of one `main` invocation.  `exited c u e` is a
normal return from `main` with exit code `c`, usage text printed iff
`u`, and a caught error description printed to standard error when `e`
is set.  `aborted e` is an abnormal termination: the exception `e` was
thrown inside a worker thread, escaped `main`'s try/catch, and
`std::terminate` killed the process (a non-zero termination that never
reaches `return 0`). -/
inductive MainOutcome where
  | exited (code : Int) (usagePrinted : Bool) (stderrMsg : Option Err)
  | aborted (e : Err)
deriving DecidableEq, Repr

/-- Model of `main`: with a malformed argument count it prints usage to
standard output and returns `-1`.  Otherwise `SplitFileIntoSections` and
`Shuffle` run on the main thread, inside the try/catch, so their
exceptions are printed to standard error and `main` still returns `0`;
`MapSection` and `ReduceContainer` run inside worker threads, so their
exceptions escape the catch and abort the process via
`std::terminate`. -/
def mainRun (argc : Nat) (path : String) (file : Option (List Char))
    (mnum rnum : Int) : MainOutcome :=
  if argc ≠ 4 then .exited (-1) true none
  else
    match SplitFileIntoSections path file mnum with
    | .error e => .exited 0 false (some e)
    | .ok positions =>
      match mapAllGo path file positions 0 mnum.toNat with
      | .error e => .aborted e
      | .ok mapResults =>
        match Shuffle mapResults rnum with
        | .error e => .exited 0 false (some e)
        | .ok buckets =>
          match reduceAllGo buckets 0 rnum.toNat with
          | .error e => .aborted e
          | .ok _ => .exited 0 false none

/-- The lines of the whole file, as obtained by reading it with repeated
`getline` from the start (the reference notion of "the input's lines"). -/
def linesLoop (f : List Char) : Nat → IStream → List String
  | 0, _ => []
  | fuel + 1, st =>
    match getline f st with
    | (some line, st2) => line :: linesLoop f fuel st2
    | (none, _) => []

/-- All lines of a file. -/
def fileLines (f : List Char) : List String :=
  linesLoop f (f.length + 1) initStream

/-- The result mapper `i` stores into its private output slot. -/
def mapResultOf (path : String) (file : Option (List Char)) (positions : List Int)
    (i : Nat) : List String :=
  match MapSection path file (positions.getD i 0) (positions.getD (i + 1) 0)
      (some idMap) with
  | .ok l => l
  | .error _ => []

/-- The mapping phase where the worker slot writes happen in the order
given by `order`: worker `i` writes `mapResultOf i` into slot `i` of a
pre-sized slot vector. -/
def runMappersIn (path : String) (file : Option (List Char)) (positions : List Int)
    (m : Nat) (order : List Nat) : List (List String) :=
  order.foldl (fun acc i => acc.set i (mapResultOf path file positions i))
    (List.replicate m [])

/-- The inner boundary recorded by the sectioner for target offset `t`:
the byte offset immediately following the first line terminator at or
after `t` (or the failure value `-1` when no terminator follows). -/
def boundVal (f : List Char) (t : Nat) : Int :=
  match findNl f t with
  | some j => (j : Int) + 1
  | none => -1

/-- The executable lexicographic comparison agrees with the lexicographic
order on character lists. -/
theorem charsLtB_iff (l1 l2 : List Char) :
    charsLtB l1 l2 = true ↔ List.Lex (· < ·) l1 l2 := by
  induction l1 generalizing l2 with
  | nil =>
    cases l2 with
    | nil =>
      constructor
      · intro h; simp [charsLtB] at h
      · intro h; cases h
    | cons b bs =>
      constructor
      · intro _; exact List.Lex.nil
      · intro _; rfl
  | cons a as ih =>
    cases l2 with
    | nil =>
      constructor
      · intro h; simp [charsLtB] at h
      · intro h; cases h
    | cons b bs =>
      simp only [charsLtB]
      by_cases hab : a < b
      · simp only [hab, if_true]
        exact ⟨fun _ => List.Lex.rel hab, fun _ => trivial⟩
      · simp only [hab, if_false]
        by_cases hba : b < a
        · simp only [hba, if_true]
          constructor
          · intro h; cases h
          · intro h
            cases h with
            | rel h' => exact absurd h' hab
            | cons h' => exact absurd hba (lt_irrefl a)
        · simp only [hba, if_false]
          have hEq : a = b := le_antisymm (not_lt.mp hba) (not_lt.mp hab)
          subst hEq
          rw [ih bs]
          constructor
          · intro h; exact List.Lex.cons h
          · intro h
            cases h with
            | rel h' => exact absurd h' hab
            | cons h' => exact h'

/-- The executable string comparison agrees with the standard
lexicographic order on `String`. -/
theorem strLtB_iff (a b : String) : strLtB a b = true ↔ a < b := by
  rw [strLtB, charsLtB_iff, String.lt_iff_toList_lt]
  exact Iff.rfl

theorem strLtB_false_iff (a b : String) : strLtB a b = false ↔ ¬ a < b := by
  rw [← strLtB_iff]
  cases h : strLtB a b <;> simp

theorem lt_of_not_strLtB {a b : String} (h : strLtB a b = false) (hne : a ≠ b) :
    b < a := by
  rcases lt_trichotomy a b with h1 | h1 | h1
  · exact absurd h1 ((strLtB_false_iff a b).mp h)
  · exact absurd h1 hne
  · exact h1

/-- Inserting one occurrence permutes the stored occurrences by adding the
new item. -/
theorem insertOcc_flatten_perm (x : String) (m : List (String × List String)) :
    ((insertOcc x m).map Prod.snd).flatten.Perm
      (x :: (m.map Prod.snd).flatten) := by
  induction m with
  | nil => simp [insertOcc]
  | cons p m ih =>
    obtain ⟨k, v⟩ := p
    rw [insertOcc]
    by_cases h1 : strLtB x k
    · simp only [h1, if_true]
      simp
    · simp only [h1, Bool.false_eq_true, if_false]
      by_cases h2 : x = k
      · simp only [h2, if_true]
        subst h2
        simp only [List.map_cons, List.flatten_cons]
        rw [List.append_assoc, List.singleton_append]
        exact List.perm_middle
      · simp only [h2, if_false]
        simp only [List.map_cons, List.flatten_cons]
        exact (ih.append_left v).trans List.perm_middle

/-- Every key after insertion is the inserted item or an old key. -/
theorem insertOcc_keys_sub (x : String) (m : List (String × List String)) :
    ∀ y ∈ (insertOcc x m).map Prod.fst, y = x ∨ y ∈ m.map Prod.fst := by
  induction m with
  | nil => simp [insertOcc]
  | cons p m ih =>
    obtain ⟨k, v⟩ := p
    rw [insertOcc]
    by_cases h1 : strLtB x k
    · simp only [h1, if_true]
      intro y hy
      simp only [List.map_cons, List.mem_cons] at hy ⊢
      tauto
    · simp only [h1, Bool.false_eq_true, if_false]
      by_cases h2 : x = k
      · simp only [h2, if_true]
        intro y hy
        simp only [List.map_cons, List.mem_cons] at hy ⊢
        tauto
      · simp only [h2, if_false]
        intro y hy
        simp only [List.map_cons, List.mem_cons] at hy ⊢
        rcases hy with hy | hy
        · tauto
        · rcases ih y hy with hy' | hy' <;> tauto

/-- Insertion keeps the keys strictly ascending. -/
theorem insertOcc_sorted (x : String) (m : List (String × List String))
    (h : (m.map Prod.fst).Pairwise (· < ·)) :
    ((insertOcc x m).map Prod.fst).Pairwise (· < ·) := by
  induction m with
  | nil => simp [insertOcc]
  | cons p m ih =>
    obtain ⟨k, v⟩ := p
    simp only [List.map_cons, List.pairwise_cons] at h
    obtain ⟨hk, hm⟩ := h
    rw [insertOcc]
    by_cases h1 : strLtB x k
    · simp only [h1, if_true]
      have hxk : x < k := (strLtB_iff x k).mp h1
      simp only [List.map_cons, List.pairwise_cons, List.mem_cons]
      refine ⟨?_, hk, hm⟩
      intro y hy
      rcases hy with hy | hy
      · exact hy ▸ hxk
      · exact lt_trans hxk (hk y hy)
    · simp only [h1, Bool.false_eq_true, if_false]
      by_cases h2 : x = k
      · simp only [h2, if_true]
        simp only [List.map_cons, List.pairwise_cons]
        exact ⟨hk, hm⟩
      · simp only [h2, if_false]
        have hkx : k < x := lt_of_not_strLtB (Bool.not_eq_true _ ▸ h1 : strLtB x k = false) h2
        simp only [List.map_cons, List.pairwise_cons]
        refine ⟨?_, ih hm⟩
        intro y hy
        rcases insertOcc_keys_sub x m y hy with hy' | hy'
        · exact hy' ▸ hkx
        · exact hk y hy'

/-- Insertion keeps every stored occurrence equal to its key. -/
theorem insertOcc_pure (x : String) (m : List (String × List String))
    (h : ∀ p ∈ m, ∀ y ∈ p.2, y = p.1) :
    ∀ p ∈ insertOcc x m, ∀ y ∈ p.2, y = p.1 := by
  induction m with
  | nil =>
    simp only [insertOcc]
    intro p hp
    simp only [List.mem_singleton] at hp
    subst hp
    intro y hy
    simp only [List.mem_singleton] at hy
    exact hy
  | cons q m ih =>
    obtain ⟨k, v⟩ := q
    rw [insertOcc]
    by_cases h1 : strLtB x k
    · simp only [h1, if_true]
      intro p hp
      simp only [List.mem_cons] at hp
      rcases hp with hp | hp | hp
      · subst hp; intro y hy; simpa using hy
      · subst hp; exact h ⟨k, v⟩ (by simp)
      · exact h p (by simp [hp])
    · simp only [h1, Bool.false_eq_true, if_false]
      by_cases h2 : x = k
      · simp only [h2, if_true]
        intro p hp
        simp only [List.mem_cons] at hp
        rcases hp with hp | hp
        · subst hp
          intro y hy
          simp only [List.mem_append, List.mem_singleton] at hy
          rcases hy with hy | hy
          · exact h ⟨k, v⟩ (by simp) y hy
          · exact hy
        · exact h p (by simp [hp])
      · simp only [h2, if_false]
        intro p hp
        simp only [List.mem_cons] at hp
        rcases hp with hp | hp
        · subst hp; exact h ⟨k, v⟩ (by simp)
        · exact ih (fun q hq => h q (by simp [hq])) p hp

/-- Insertion keeps every occurrence list non-empty. -/
theorem insertOcc_ne_nil (x : String) (m : List (String × List String))
    (h : ∀ p ∈ m, p.2 ≠ []) :
    ∀ p ∈ insertOcc x m, p.2 ≠ [] := by
  induction m with
  | nil =>
    simp only [insertOcc]
    intro p hp
    simp only [List.mem_singleton] at hp
    subst hp
    simp
  | cons q m ih =>
    obtain ⟨k, v⟩ := q
    rw [insertOcc]
    by_cases h1 : strLtB x k
    · simp only [h1, if_true]
      intro p hp
      simp only [List.mem_cons] at hp
      rcases hp with hp | hp | hp
      · subst hp; simp
      · subst hp; exact h ⟨k, v⟩ (by simp)
      · exact h p (by simp [hp])
    · simp only [h1, Bool.false_eq_true, if_false]
      by_cases h2 : x = k
      · simp only [h2, if_true]
        intro p hp
        simp only [List.mem_cons] at hp
        rcases hp with hp | hp
        · subst hp; simp
        · exact h p (by simp [hp])
      · simp only [h2, if_false]
        intro p hp
        simp only [List.mem_cons] at hp
        rcases hp with hp | hp
        · subst hp; exact h ⟨k, v⟩ (by simp)
        · exact ih (fun q hq => h q (by simp [hq])) p hp

/-- A property preserved by insertion holds after the whole grouping
fold. -/
theorem foldl_insert_inv (P : List (String × List String) → Prop)
    (hP : ∀ x m, P m → P (insertOcc x m)) :
    ∀ (items : List String) (m : List (String × List String)), P m →
      P (items.foldl (fun m x => insertOcc x m) m) := by
  intro items
  induction items with
  | nil => intro m hm; exact hm
  | cons x xs ih => intro m hm; exact ih (insertOcc x m) (hP x m hm)

/-- The grouping fold permutes the incoming occurrences into the map. -/
theorem foldl_insert_perm :
    ∀ (items : List String) (m : List (String × List String)),
      (((items.foldl (fun m x => insertOcc x m) m).map Prod.snd).flatten).Perm
        ((m.map Prod.snd).flatten ++ items) := by
  intro items
  induction items with
  | nil => intro m; simp
  | cons x xs ih =>
    intro m
    simp only [List.foldl_cons]
    exact (ih (insertOcc x m)).trans
      (((insertOcc_flatten_perm x m).append_right xs).trans List.perm_middle.symm)

/-- The grouped map stores exactly the incoming occurrences. -/
theorem groupList_perm (items : List String) :
    (((groupList items).map Prod.snd).flatten).Perm items := by
  have h := foldl_insert_perm items []
  simpa [groupList] using h

/-- The grouped keys are strictly ascending. -/
theorem groupList_sorted (items : List String) :
    ((groupList items).map Prod.fst).Pairwise (· < ·) := by
  have h := foldl_insert_inv
    (fun m => (m.map Prod.fst).Pairwise (· < ·))
    (fun x m hm => insertOcc_sorted x m hm) items [] (by simp)
  simpa [groupList] using h

/-- Every stored occurrence equals its key. -/
theorem groupList_pure (items : List String) :
    ∀ p ∈ groupList items, ∀ y ∈ p.2, y = p.1 := by
  have h := foldl_insert_inv
    (fun m => ∀ p ∈ m, ∀ y ∈ p.2, y = p.1)
    (fun x m hm => insertOcc_pure x m hm) items [] (by simp)
  simpa [groupList] using h

/-- Every occurrence list in the grouped map is non-empty. -/
theorem groupList_ne_nil (items : List String) :
    ∀ p ∈ groupList items, p.2 ≠ [] := by
  have h := foldl_insert_inv
    (fun m => ∀ p ∈ m, p.2 ≠ [])
    (fun x m hm => insertOcc_ne_nil x m hm) items [] (by simp)
  simpa [groupList] using h

theorem length_appendAt (bs : List (List String)) (j : Nat) (g : List String) :
    (appendAt bs j g).length = bs.length := by
  induction bs generalizing j with
  | nil => rfl
  | cons b bs ih =>
    cases j with
    | zero => rfl
    | succ j => simp [appendAt, ih]

theorem getD_appendAt (bs : List (List String)) (j : Nat) (g : List String)
    (k : Nat) (hk : k < bs.length) :
    (appendAt bs j g).getD k [] =
      if k = j then bs.getD k [] ++ g else bs.getD k [] := by
  induction bs generalizing j k with
  | nil => simp at hk
  | cons b bs ih =>
    cases j with
    | zero =>
      cases k with
      | zero => simp [appendAt]
      | succ k => simp [appendAt]
    | succ j =>
      cases k with
      | zero => simp [appendAt]
      | succ k =>
        simp only [appendAt, List.getD_cons_succ]
        rw [ih j k (by simpa using hk)]
        simp [Nat.succ_inj]

theorem flatten_appendAt_perm (bs : List (List String)) (j : Nat) (g : List String)
    (hj : j < bs.length) :
    (appendAt bs j g).flatten.Perm (g ++ bs.flatten) := by
  induction bs generalizing j with
  | nil => simp at hj
  | cons b bs ih =>
    cases j with
    | zero =>
      simp only [appendAt, List.flatten_cons]
      have h := (@List.perm_append_comm _ b g).append_right bs.flatten
      simpa [List.append_assoc] using h
    | succ j =>
      simp only [appendAt, List.flatten_cons]
      have h1 := (ih j (by simpa using hj)).append_left b
      have h2 : (b ++ (g ++ bs.flatten)).Perm (g ++ (b ++ bs.flatten)) := by
        have := (@List.perm_append_comm _ b g).append_right bs.flatten
        simpa [List.append_assoc] using this
      exact h1.trans h2

theorem length_distGo (r : Nat) :
    ∀ (gs : List (List String)) (i : Nat) (acc : List (List String)),
      (distGo gs i r acc).length = acc.length := by
  intro gs
  induction gs with
  | nil => intro i acc; rfl
  | cons g gs ih =>
    intro i acc
    simp only [distGo]
    rw [ih (i + 1) (appendAt acc (i % r) g), length_appendAt]

theorem getD_distGo (r : Nat) :
    ∀ (gs : List (List String)) (i : Nat) (acc : List (List String)),
      acc.length = r → ∀ k, k < r →
      (distGo gs i r acc).getD k [] = acc.getD k [] ++ selFrom gs i r k := by
  intro gs
  induction gs with
  | nil => intro i acc _ k _; simp [distGo, selFrom]
  | cons g gs ih =>
    intro i acc hacc k hk
    simp only [distGo, selFrom]
    rw [ih (i + 1) (appendAt acc (i % r) g) (by rw [length_appendAt]; exact hacc) k hk]
    rw [getD_appendAt acc (i % r) g k (by rw [hacc]; exact hk)]
    by_cases hkj : k = i % r
    · rw [if_pos hkj, if_pos hkj.symm, List.append_assoc]
    · rw [if_neg hkj, if_neg (fun h => hkj h.symm), List.nil_append]

theorem flatten_distGo_perm (r : Nat) (hr : 0 < r) :
    ∀ (gs : List (List String)) (i : Nat) (acc : List (List String)),
      acc.length = r →
      (distGo gs i r acc).flatten.Perm (gs.flatten ++ acc.flatten) := by
  intro gs
  induction gs with
  | nil => intro i acc _; simp [distGo]
  | cons g gs ih =>
    intro i acc hacc
    simp only [distGo, List.flatten_cons]
    have h1 := ih (i + 1) (appendAt acc (i % r) g) (by rw [length_appendAt]; exact hacc)
    have h2 := (flatten_appendAt_perm acc (i % r) g
      (by rw [hacc]; exact Nat.mod_lt i hr)).append_left gs.flatten
    have h3 : (gs.flatten ++ (g ++ acc.flatten)).Perm ((g ++ gs.flatten) ++ acc.flatten) := by
      have := (@List.perm_append_comm _ gs.flatten g).append_right acc.flatten
      simpa [List.append_assoc] using this
    exact (h1.trans h2).trans (by simpa [List.append_assoc] using h3)

theorem mem_selFrom (r j : Nat) (x : String) :
    ∀ (gs : List (List String)) (i : Nat),
      x ∈ selFrom gs i r j ↔ ∃ p, p < gs.length ∧ (i + p) % r = j ∧ x ∈ gs.getD p [] := by
  intro gs
  induction gs with
  | nil => intro i; simp [selFrom]
  | cons g gs ih =>
    intro i
    simp only [selFrom, List.mem_append]
    constructor
    · intro h
      rcases h with h | h
      · by_cases hij : i % r = j
        · refine ⟨0, by simp, by simpa using hij, ?_⟩
          rw [if_pos hij] at h
          simpa using h
        · rw [if_neg hij] at h
          simp at h
      · rcases (ih (i + 1)).mp h with ⟨p, hp, hmod, hmem⟩
        refine ⟨p + 1, by simpa using hp, ?_, by simpa using hmem⟩
        rw [show i + (p + 1) = i + 1 + p by omega]
        exact hmod
    · rintro ⟨p, hp, hmod, hmem⟩
      cases p with
      | zero =>
        left
        rw [if_pos (by simpa using hmod)]
        simpa using hmem
      | succ p =>
        right
        refine (ih (i + 1)).mpr ⟨p, by simpa using hp, ?_, by simpa using hmem⟩
        rw [show i + 1 + p = i + (p + 1) by omega]
        exact hmod

theorem selFrom_eq_nil (r j : Nat) :
    ∀ (gs : List (List String)) (i : Nat),
      (∀ p, p < gs.length → (i + p) % r ≠ j) → selFrom gs i r j = [] := by
  intro gs
  induction gs with
  | nil => intro i _; rfl
  | cons g gs ih =>
    intro i h
    simp only [selFrom]
    rw [if_neg (by simpa using h 0 (by simp)), List.nil_append]
    refine ih (i + 1) ?_
    intro p hp
    rw [show i + 1 + p = i + (p + 1) by omega]
    exact h (p + 1) (by simpa using hp)

theorem getD_replicate_nil : ∀ (n k : Nat),
    (List.replicate n ([] : List String)).getD k [] = [] := by
  intro n
  induction n with
  | zero => intro k; cases k <;> rfl
  | succ n ih =>
    intro k
    cases k with
    | zero => rfl
    | succ k => simp [List.replicate_succ, ih k]

theorem flatten_replicate_nil : ∀ n : Nat,
    (List.replicate n ([] : List String)).flatten = [] := by
  intro n
  induction n with
  | zero => rfl
  | succ n ih => simp [List.replicate_succ, ih]

/-- Unfolding a successful `Shuffle` call. -/
theorem Shuffle_ok {maps : List (List String)} {r : Int}
    {buckets : List (List String)} (h : Shuffle maps r = .ok buckets) :
    maps ≠ [] ∧ 0 < r ∧
      buckets = distGo ((groupAll maps).map Prod.snd) 0 r.toNat
        (List.replicate r.toNat []) := by
  rw [Shuffle] at h
  by_cases hc : maps = [] ∨ r ≤ 0
  · rw [if_pos hc] at h; cases h
  · rw [if_neg hc] at h
    push_neg at hc
    exact ⟨hc.1, hc.2, (Except.ok.injEq _ _ ▸ h :).symm⟩

/-- The length of the bucket vector returned by a successful shuffle. -/
theorem Shuffle_length {maps : List (List String)} {r : Int}
    {buckets : List (List String)} (h : Shuffle maps r = .ok buckets) :
    buckets.length = r.toNat := by
  obtain ⟨-, -, hb⟩ := Shuffle_ok h
  rw [hb, length_distGo, List.length_replicate]

/-- Bucket `k` of a successful shuffle holds exactly the groups whose
rank in ascending key order is congruent to `k` modulo `r`. -/
theorem Shuffle_getD {maps : List (List String)} {r : Int}
    {buckets : List (List String)} (h : Shuffle maps r = .ok buckets)
    (k : Nat) (hk : k < r.toNat) :
    buckets.getD k [] = selFrom ((groupAll maps).map Prod.snd) 0 r.toNat k := by
  obtain ⟨-, -, hb⟩ := Shuffle_ok h
  rw [hb, getD_distGo r.toNat _ 0 _ (List.length_replicate _ _) k hk,
    getD_replicate_nil, List.nil_append]

/-- A successful shuffle permutes the incoming occurrences. -/
theorem Shuffle_flatten_perm {maps : List (List String)} {r : Int}
    {buckets : List (List String)} (h : Shuffle maps r = .ok buckets) :
    buckets.flatten.Perm maps.flatten := by
  obtain ⟨-, hr, hb⟩ := Shuffle_ok h
  have hrn : 0 < r.toNat := by omega
  have h1 := flatten_distGo_perm r.toNat hrn ((groupAll maps).map Prod.snd) 0
    (List.replicate r.toNat []) (List.length_replicate _ _)
  rw [← hb, flatten_replicate_nil, List.append_nil] at h1
  exact h1.trans (groupList_perm maps.flatten)

/-- Counting in a flattened list of lists sums the per-list counts. -/
theorem count_flatten (k : String) :
    ∀ L : List (List String), L.flatten.count k = (L.map (List.count k)).sum := by
  intro L
  induction L with
  | nil => rfl
  | cons b L ih => simp [List.count_append, ih]

/-- If all entries except entry `j0` have count zero, the total count is
the count of entry `j0`. -/
theorem sum_count_single (k : String) :
    ∀ (L : List (List String)) (j0 : Nat), j0 < L.length →
      (∀ j, j < L.length → j ≠ j0 → (L.getD j []).count k = 0) →
      (L.map (List.count k)).sum = (L.getD j0 []).count k := by
  intro L
  induction L with
  | nil => intro j0 h; simp at h
  | cons b L ih =>
    intro j0 hj0 hz
    cases j0 with
    | zero =>
      simp only [List.map_cons, List.sum_cons, List.getD_cons_zero]
      have : (L.map (List.count k)).sum = 0 := by
        apply List.sum_eq_zero
        intro x hx
        rcases List.mem_map.mp hx with ⟨l, hl, hxl⟩
        rcases List.mem_iff_getElem.mp hl with ⟨n, hn, hget⟩
        subst hxl
        have h0 := hz (n + 1) (by simp; omega) (by omega)
        simp only [List.getD_cons_succ] at h0
        rw [List.getD_eq_getElem _ _ hn, hget] at h0
        exact h0
      omega
    | succ j0 =>
      simp only [List.map_cons, List.sum_cons, List.getD_cons_succ]
      have hb0 : b.count k = 0 := by
        have := hz 0 (by simp) (by omega)
        simpa using this
      rw [hb0, Nat.zero_add]
      apply ih j0 (by simpa using hj0)
      intro j hj hne
      have := hz (j + 1) (by simpa using hj) (by omega)
      simpa using this

/-- For a key occurring in the mapped items, there is exactly one bucket
of a successful shuffle containing it, and that bucket holds all of its
occurrences. -/
theorem Shuffle_key_unique {maps : List (List String)} {r : Int}
    {buckets : List (List String)} (h : Shuffle maps r = .ok buckets)
    {k : String} (hk : k ∈ maps.flatten) :
    ∃ j0, j0 < buckets.length ∧
      (∀ j, j < buckets.length → (k ∈ buckets.getD j [] ↔ j = j0)) ∧
      (buckets.getD j0 []).count k = maps.flatten.count k := by
  obtain ⟨hm, hr, -⟩ := Shuffle_ok h
  have hrn : 0 < r.toNat := by omega
  have hlen := Shuffle_length h
  have hga : groupAll maps = groupList maps.flatten := rfl
  have hperm := groupList_perm maps.flatten
  have hkf : k ∈ ((groupAll maps).map Prod.snd).flatten := by
    rw [hga]
    exact hperm.mem_iff.mpr hk
  rcases List.mem_flatten.mp hkf with ⟨l, hl, hkl⟩
  rcases List.mem_map.mp hl with ⟨p, hp, hpl⟩
  have hkp : k ∈ p.2 := by rw [hpl]; exact hkl
  have hpk : p.1 = k := (groupList_pure maps.flatten p (hga ▸ hp) k hkp).symm
  rcases List.mem_iff_getElem.mp hp with ⟨p0, hp0, hgp⟩
  have hnod : ((groupAll maps).map Prod.fst).Nodup := by
    rw [hga]
    exact (groupList_sorted maps.flatten).imp ne_of_lt
  have hj0lt : p0 % r.toNat < buckets.length := by
    rw [hlen]; exact Nat.mod_lt _ hrn
  have hiff : ∀ j, j < buckets.length → (k ∈ buckets.getD j [] ↔ j = p0 % r.toNat) := by
    intro j hj
    rw [hlen] at hj
    rw [Shuffle_getD h j hj]
    constructor
    · intro hmem
      rcases (mem_selFrom r.toNat j k _ 0).mp hmem with ⟨q, hq, hqm, hqmem⟩
      have hq' : q < (groupAll maps).length := by simpa using hq
      have hgetq : ((groupAll maps).map Prod.snd).getD q [] = ((groupAll maps)[q]).2 := by
        rw [List.getD_eq_getElem _ _ hq, List.getElem_map]
      rw [hgetq] at hqmem
      have hkeyq : ((groupAll maps)[q]).1 = k :=
        (groupList_pure maps.flatten _ (hga ▸ List.getElem_mem hq') k hqmem).symm
      have hq2 : q < ((groupAll maps).map Prod.fst).length := by simpa using hq'
      have hp2 : p0 < ((groupAll maps).map Prod.fst).length := by simpa using hp0
      have h1 : ((groupAll maps).map Prod.fst)[q] = k := by
        rw [List.getElem_map]; exact hkeyq
      have h2 : ((groupAll maps).map Prod.fst)[p0] = k := by
        rw [List.getElem_map, hgp]; exact hpk
      have hqp : q = p0 := by
        have := h1.trans h2.symm
        exact (List.Nodup.getElem_inj_iff hnod).mp this
      rw [Nat.zero_add] at hqm
      rw [← hqm, hqp]
    · intro hj0
      rw [hj0]
      apply (mem_selFrom r.toNat (p0 % r.toNat) k _ 0).mpr
      refine ⟨p0, by simpa using hp0, by simp, ?_⟩
      have hgetp : ((groupAll maps).map Prod.snd).getD p0 [] = ((groupAll maps)[p0]).2 := by
        rw [List.getD_eq_getElem _ _ (by simpa using hp0), List.getElem_map]
      rw [hgetp, hgp]
      exact hkp
  refine ⟨p0 % r.toNat, hj0lt, hiff, ?_⟩
  have hflat := (Shuffle_flatten_perm h).count_eq k
  rw [count_flatten] at hflat
  have hsum := sum_count_single k buckets (p0 % r.toNat) hj0lt ?_
  · rw [← hsum, hflat]
  · intro j hj hne
    exact List.count_eq_zero.mpr (fun hmem => hne ((hiff j hj).mp hmem))

/-- C1: for every successful run of `Shuffle` over mapper outputs, every
occurrence of every mapped item appears in exactly one bucket, all
occurrences of the same key land in the same bucket, and the multiset
union of the buckets equals the multiset union of the mapper outputs, so
the sum of bucket sizes equals the sum of mapper output sizes. -/
theorem claim_C1_shuffle_partition (maps : List (List String)) (r : Int)
    (buckets : List (List String)) (h : Shuffle maps r = .ok buckets) :
    buckets.length = r.toNat ∧
    (buckets.map List.length).sum = (maps.map List.length).sum ∧
    buckets.flatten.Perm maps.flatten ∧
    ∀ k ∈ maps.flatten, ∃ j0, j0 < buckets.length ∧
      (∀ j, j < buckets.length → (k ∈ buckets.getD j [] ↔ j = j0)) ∧
      (buckets.getD j0 []).count k = maps.flatten.count k := by
  refine ⟨Shuffle_length h, ?_, Shuffle_flatten_perm h,
    fun k hk => Shuffle_key_unique h hk⟩
  have hl := (Shuffle_flatten_perm h).length_eq
  rwa [List.length_flatten, List.length_flatten] at hl

/-- Witness for C1 at the concrete input `[["a","b"],["a"]]` with two
reducers. -/
theorem claim_C1_witness :
    Shuffle [["a", "b"], ["a"]] 2 = .ok [["a", "a"], ["b"]] ∧
    ([["a", "a"], ["b"]].length = (2 : Int).toNat ∧
      ([["a", "a"], ["b"]].map List.length).sum =
        ([["a", "b"], ["a"]].map List.length).sum ∧
      [["a", "a"], ["b"]].flatten.Perm [["a", "b"], ["a"]].flatten ∧
      ∀ k ∈ [["a", "b"], ["a"]].flatten, ∃ j0, j0 < [["a", "a"], ["b"]].length ∧
        (∀ j, j < [["a", "a"], ["b"]].length →
          (k ∈ [["a", "a"], ["b"]].getD j [] ↔ j = j0)) ∧
        ([["a", "a"], ["b"]].getD j0 []).count k =
          [["a", "b"], ["a"]].flatten.count k) :=
  ⟨rfl, claim_C1_shuffle_partition [["a", "b"], ["a"]] 2 [["a", "a"], ["b"]] rfl⟩

/-- C2: `Shuffle` groups items by exact string equality preserving
multiplicity, iterates the distinct keys in ascending lexicographic
order, and assigns each distinct key (all its occurrences together) to
bucket `counter mod r`, the counter incremented once per distinct key;
in particular mapped items `a, b, a, c` with two reducers put `a, a, c`
in bucket 0 and `b` in bucket 1 (witness). -/
theorem claim_C2_shuffle_order (maps : List (List String)) (r : Int)
    (buckets : List (List String)) (h : Shuffle maps r = .ok buckets) :
    buckets.length = r.toNat ∧
    ((groupAll maps).map Prod.fst).Pairwise (· < ·) ∧
    (∀ p ∈ groupAll maps, p.2 = List.replicate p.2.length p.1) ∧
    ((groupAll maps).map Prod.snd).flatten.Perm maps.flatten ∧
    ∀ j, j < r.toNat →
      buckets.getD j [] = selFrom ((groupAll maps).map Prod.snd) 0 r.toNat j := by
  have hga : groupAll maps = groupList maps.flatten := rfl
  refine ⟨Shuffle_length h, hga ▸ groupList_sorted maps.flatten, ?_,
    hga ▸ groupList_perm maps.flatten, fun j hj => Shuffle_getD h j hj⟩
  intro p hp
  exact List.eq_replicate_of_mem (groupList_pure maps.flatten p (hga ▸ hp))

/-- Witness for C2: the concrete scenario from the specification, mapped
items `a, b, a, c` with two reducers. -/
theorem claim_C2_witness :
    Shuffle [["a", "b", "a", "c"]] 2 = .ok [["a", "a", "c"], ["b"]] ∧
    ([["a", "a", "c"], ["b"]].length = (2 : Int).toNat ∧
      ((groupAll [["a", "b", "a", "c"]]).map Prod.fst).Pairwise (· < ·) ∧
      (∀ p ∈ groupAll [["a", "b", "a", "c"]],
        p.2 = List.replicate p.2.length p.1) ∧
      ((groupAll [["a", "b", "a", "c"]]).map Prod.snd).flatten.Perm
        [["a", "b", "a", "c"]].flatten ∧
      ∀ j, j < (2 : Int).toNat →
        [["a", "a", "c"], ["b"]].getD j [] =
          selFrom ((groupAll [["a", "b", "a", "c"]]).map Prod.snd) 0
            (2 : Int).toNat j) :=
  ⟨rfl, claim_C2_shuffle_order [["a", "b", "a", "c"]] 2 [["a", "a", "c"], ["b"]] rfl⟩

theorem except_bind_ok {α β : Type} (a : α) (f : α → Except Err β) :
    (Except.ok a >>= f) = f a := rfl

theorem except_bind_err {α β : Type} (e : Err) (f : α → Except Err β) :
    ((Except.error e : Except Err α) >>= f) = .error e := rfl

theorem str_data_append (a b : String) : (a ++ b).data = a.data ++ b.data := rfl

/-- An output artifact name is never empty. -/
theorem outputName_ne (i : Nat) : outputName i ≠ "" := by
  intro h
  have hd := congrArg String.data h
  rw [outputName, str_data_append, str_data_append] at hd
  have : ("output_".data : List Char) = [] := by
    have := List.append_eq_nil.mp (List.append_eq_nil.mp hd).1
    exact this.1
  simp at this

/-- A reducer worker on an empty bucket fails with `InvalidArgument`. -/
theorem reduceRun_empty (name : String) :
    reduceRun [] name = .error .invalidArgument := rfl

/-- A reducer worker on a non-empty bucket with a non-empty artifact name
succeeds and writes the bucket through the identity reduce function. -/
theorem reduceRun_ok (b : List String) (hb : b ≠ []) (name : String) (hn : name ≠ "") :
    reduceRun b name = .ok b := by
  rw [reduceRun, ReduceContainer, if_neg]
  · rfl
  · simp [hb, hn]

/-- If some bucket handled by the reducing phase is empty, the phase
fails with `InvalidArgument`. -/
theorem reduceAllGo_error (buckets : List (List String)) :
    ∀ (cnt i : Nat), (∃ d, d < cnt ∧ buckets.getD (i + d) [] = []) →
      reduceAllGo buckets i cnt = .error .invalidArgument := by
  intro cnt
  induction cnt with
  | zero => intro i h; rcases h with ⟨d, hd, -⟩; omega
  | succ cnt ih =>
    intro i h
    rcases h with ⟨d, hd, hnil⟩
    by_cases h0 : buckets.getD i [] = []
    · show (reduceRun (buckets.getD i []) (outputName i) >>= fun art =>
        (reduceAllGo buckets (i + 1) cnt) >>= fun rest => .ok (art :: rest)) = _
      rw [h0, reduceRun_empty, except_bind_err]
    · have hd0 : d ≠ 0 := by
        intro h'
        rw [h', Nat.add_zero] at hnil
        exact h0 hnil
      obtain ⟨d', rfl⟩ : ∃ d', d = d' + 1 := ⟨d - 1, by omega⟩
      have hrec := ih (i + 1) ⟨d', by omega, by
        rw [show i + 1 + d' = i + (d' + 1) by omega]; exact hnil⟩
      show (reduceRun (buckets.getD i []) (outputName i) >>= fun art =>
        (reduceAllGo buckets (i + 1) cnt) >>= fun rest => .ok (art :: rest)) = _
      rw [reduceRun_ok _ h0 _ (outputName_ne i), except_bind_ok, hrec, except_bind_err]

/-- C7: whenever the reducer count exceeds the number of distinct mapped
item values, the round-robin assignment by distinct key leaves at least
one bucket empty; `ReduceContainer` raises `InvalidArgument` for that
bucket without touching its artifactation, and the reducing phase of the
pipeline fails, so a terminal success with all `r` artifacts written is
impossible. -/
theorem claim_C7_starved_reducer (maps : List (List String)) (r : Int)
    (hm : maps ≠ []) (hr : 0 < r) (hk : (groupAll maps).length < r.toNat) :
    ∃ buckets, Shuffle maps r = .ok buckets ∧
      ∃ j, j < r.toNat ∧ buckets.getD j [] = [] ∧
        (∀ (name : String) (canOpen : Bool) (prev : Option (List String)),
          ReduceContainer (buckets.getD j []) (some idReduce) name canOpen prev
            = (.error .invalidArgument, prev)) ∧
        reduceAllGo buckets 0 r.toNat = .error .invalidArgument := by
  have hrn : 0 < r.toNat := by omega
  have hcond : ¬(maps = [] ∨ r ≤ 0) := by push_neg; exact ⟨hm, by omega⟩
  have hsh : Shuffle maps r = .ok (distGo ((groupAll maps).map Prod.snd) 0 r.toNat
      (List.replicate r.toNat [])) := by
    rw [Shuffle, if_neg hcond]
  refine ⟨_, hsh, r.toNat - 1, by omega, ?_, ?_, ?_⟩
  case _ =>
    rw [Shuffle_getD hsh (r.toNat - 1) (by omega)]
    apply selFrom_eq_nil
    intro p hp
    rw [Nat.zero_add]
    have hp' : p < (groupAll maps).length := by simpa using hp
    rw [Nat.mod_eq_of_lt (by omega)]
    omega
  case _ =>
    intro name canOpen prev
    rw [Shuffle_getD hsh (r.toNat - 1) (by omega)]
    rw [selFrom_eq_nil]
    · rfl
    · intro p hp
      rw [Nat.zero_add]
      have hp' : p < (groupAll maps).length := by simpa using hp
      rw [Nat.mod_eq_of_lt (by omega)]
      omega
  case _ =>
    apply reduceAllGo_error
    refine ⟨r.toNat - 1, by omega, ?_⟩
    rw [Nat.zero_add, Shuffle_getD hsh (r.toNat - 1) (by omega)]
    apply selFrom_eq_nil
    intro p hp
    rw [Nat.zero_add]
    have hp' : p < (groupAll maps).length := by simpa using hp
    rw [Nat.mod_eq_of_lt (by omega)]
    omega

/-- Witness for C7: one mapped item and two reducers leave bucket 1
empty and the whole pipeline fails on the one-line file `a`. -/
theorem claim_C7_witness :
    (∃ buckets, Shuffle [["a"]] 2 = .ok buckets ∧
      ∃ j, j < (2 : Int).toNat ∧ buckets.getD j [] = [] ∧
        (∀ (name : String) (canOpen : Bool) (prev : Option (List String)),
          ReduceContainer (buckets.getD j []) (some idReduce) name canOpen prev
            = (.error .invalidArgument, prev)) ∧
        reduceAllGo buckets 0 (2 : Int).toNat = .error .invalidArgument) ∧
    pipeline "in" (some ['a', '\n']) 1 2 = .error .invalidArgument :=
  ⟨claim_C7_starved_reducer [["a"]] 2 (by simp) (by omega)
    (by decide), rfl⟩

/-- C8: the pipeline on a zero-byte input fails with the `EmptyInput`
error kind, which is distinct from the `IOError` kind raised when the
file cannot be opened; the failure arises in `SplitFileIntoSections`,
before the mapping phase. -/
theorem claim_C8_empty_file (path : String) (m : Int) (hp : path ≠ "") (hm : 0 < m) :
    SplitFileIntoSections path (some []) m = .error .emptyInput ∧
    (∀ r, pipeline path (some []) m r = .error .emptyInput) ∧
    SplitFileIntoSections path none m = .error .ioError ∧
    Err.emptyInput ≠ Err.ioError := by
  have hcond : ¬(path = "" ∨ m ≤ 0) := by push_neg; exact ⟨hp, by omega⟩
  have h1 : SplitFileIntoSections path (some []) m = .error .emptyInput := by
    rw [SplitFileIntoSections, if_neg hcond]
    rfl
  refine ⟨h1, ?_, ?_, by simp⟩
  · intro r
    show (SplitFileIntoSections path (some []) m >>= fun positions =>
      (mapAllGo path (some []) positions 0 m.toNat) >>= fun mapResults =>
      (Shuffle mapResults r) >>= fun buckets =>
      reduceAllGo buckets 0 r.toNat) = _
    rw [h1, except_bind_err]
  · rw [SplitFileIntoSections, if_neg hcond]

/-- Witness for C8 at the concrete path `in` with one mapper. -/
theorem claim_C8_witness :
    (SplitFileIntoSections "in" (some []) 1 = .error .emptyInput ∧
      (∀ r, pipeline "in" (some []) 1 r = .error .emptyInput) ∧
      SplitFileIntoSections "in" none 1 = .error .ioError ∧
      Err.emptyInput ≠ Err.ioError) ∧
    pipeline "in" (some []) 1 1 = .error .emptyInput :=
  ⟨claim_C8_empty_file "in" 1 (by simp) (by omega), rfl⟩

/-- C9: `ReduceContainer` raises `InvalidArgument` exactly when the
bucket is empty, the reduce function is unset, or the output identifier
is empty, and in that case the output artifact is neither created nor
modified. -/
theorem claim_C9_reduce_validation (bucket : List String)
    (fn : Option (List String → List String)) (name : String) (canOpen : Bool)
    (prev : Option (List String)) :
    ((ReduceContainer bucket fn name canOpen prev).1 = .error .invalidArgument ↔
      (bucket = [] ∨ fn = none ∨ name = "")) ∧
    ((bucket = [] ∨ fn = none ∨ name = "") →
      (ReduceContainer bucket fn name canOpen prev).2 = prev) := by
  have hiff : (bucket = [] ∨ fn.isNone = true ∨ name = "") ↔
      (bucket = [] ∨ fn = none ∨ name = "") := by
    rw [Option.isNone_iff_eq_none]
  rw [ReduceContainer.eq_def]
  by_cases hc : bucket = [] ∨ fn = none ∨ name = ""
  · rw [if_pos (hiff.mpr hc)]
    exact ⟨⟨fun _ => hc, fun _ => rfl⟩, fun _ => rfl⟩
  · rw [if_neg (fun h => hc (hiff.mp h))]
    match fn with
    | none => exact absurd (Or.inr (Or.inl rfl)) hc
    | some rf =>
      cases canOpen with
      | false =>
        refine ⟨⟨fun h => ?_, fun h => absurd h hc⟩, fun h => absurd h hc⟩
        simp at h
      | true =>
        refine ⟨⟨fun h => ?_, fun h => absurd h hc⟩, fun h => absurd h hc⟩
        simp at h

/-- Witness for C9: an empty bucket makes `ReduceContainer` fail with
`InvalidArgument` and leaves the pre-existing artifact untouched. -/
theorem claim_C9_witness :
    (ReduceContainer [] (some idReduce) "output_0.txt" true (some ["old"])).1
      = .error .invalidArgument ∧
    (ReduceContainer [] (some idReduce) "output_0.txt" true (some ["old"])).2
      = some ["old"] :=
  ⟨(claim_C9_reduce_validation [] (some idReduce) "output_0.txt" true
      (some ["old"])).1.mpr (Or.inl rfl),
    (claim_C9_reduce_validation [] (some idReduce) "output_0.txt" true
      (some ["old"])).2 (Or.inl rfl)⟩

/-- Counterexample to C10 as stated: with a well-formed argument count on
the one-line file `a` with one mapper and two reducers, the reducer
worker for the empty bucket throws `InvalidArgument` inside its thread;
the exception escapes `main`'s catch and the process is aborted by
`std::terminate` — a non-zero termination with `argc = 4`, not the
success exit with the error printed to standard error that the claim
asserts for every internal failure. -/
theorem claim_C10_counterexample :
    mainRun 4 "in" (some ['a', '\n']) 1 2 = .aborted .invalidArgument ∧
    ∀ u e, mainRun 4 "in" (some ['a', '\n']) 1 2 ≠ .exited 0 u e := by
  refine ⟨rfl, ?_⟩
  intro u e h
  rw [show mainRun 4 "in" (some ['a', '\n']) 1 2 = .aborted .invalidArgument
    from rfl] at h
  cases h

/-- C10 (amended): every normal return of the process has a non-zero
exit code exactly when the argument count is malformed (with usage text
printed to standard output); a pipeline failure raised on the main
thread — sectioning or shuffling — is printed to standard error and the
process still returns the success status; but a failure raised inside a
mapping or reducing worker thread escapes `main`'s catch and aborts the
process via `std::terminate`, a non-zero termination (see the
counterexample for why the original claim fails). -/
theorem claim_C10_exit_status_amended (argc : Nat) (path : String)
    (file : Option (List Char)) (m r : Int) :
    (∀ c u e, mainRun argc path file m r = .exited c u e → (c ≠ 0 ↔ argc ≠ 4)) ∧
    (argc ≠ 4 → mainRun argc path file m r = .exited (-1) true none) ∧
    (∀ e, argc = 4 → SplitFileIntoSections path file m = .error e →
      mainRun argc path file m r = .exited 0 false (some e)) ∧
    (∀ positions e, argc = 4 →
      SplitFileIntoSections path file m = .ok positions →
      mapAllGo path file positions 0 m.toNat = .error e →
      mainRun argc path file m r = .aborted e) ∧
    (∀ positions mapResults e, argc = 4 →
      SplitFileIntoSections path file m = .ok positions →
      mapAllGo path file positions 0 m.toNat = .ok mapResults →
      Shuffle mapResults r = .error e →
      mainRun argc path file m r = .exited 0 false (some e)) ∧
    (∀ positions mapResults buckets e, argc = 4 →
      SplitFileIntoSections path file m = .ok positions →
      mapAllGo path file positions 0 m.toNat = .ok mapResults →
      Shuffle mapResults r = .ok buckets →
      reduceAllGo buckets 0 r.toNat = .error e →
      mainRun argc path file m r = .aborted e) := by
  by_cases h4 : argc = 4
  · subst h4
    rw [mainRun.eq_def, if_neg (by omega : ¬(4 ≠ 4))]
    refine ⟨?_, fun h => absurd rfl h, ?_, ?_, ?_, ?_⟩
    · intro c u e h
      cases hS : SplitFileIntoSections path file m with
      | error e1 =>
        simp only [hS] at h
        cases h
        simp
      | ok positions =>
        simp only [hS] at h
        cases hM : mapAllGo path file positions 0 m.toNat with
        | error e1 => simp only [hM] at h; cases h
        | ok mapResults =>
          simp only [hM] at h
          cases hSh : Shuffle mapResults r with
          | error e1 =>
            simp only [hSh] at h
            cases h
            simp
          | ok buckets =>
            simp only [hSh] at h
            cases hR : reduceAllGo buckets 0 r.toNat with
            | error e1 => simp only [hR] at h; cases h
            | ok arts =>
              simp only [hR] at h
              cases h
              simp
    · intro e _ hS
      simp only [hS]
    · intro positions e _ hS hM
      simp only [hS, hM]
    · intro positions mapResults e _ hS hM hSh
      simp only [hS, hM, hSh]
    · intro positions mapResults buckets e _ hS hM hSh hR
      simp only [hS, hM, hSh, hR]
  · rw [mainRun.eq_def, if_pos h4]
    refine ⟨?_, fun _ => rfl, fun e h => absurd h h4, fun p e h => absurd h h4,
      fun p mr e h => absurd h h4, fun p mr b e h => absurd h h4⟩
    intro c u e h
    cases h
    exact ⟨fun _ => h4, fun _ => by omega⟩

/-- Witness for the amended C10: three arguments exit non-zero with
usage; an empty input file (sectioning failure, main thread) is reported
on standard error with the success exit; a non-positive reducer count
(shuffling failure, main thread) likewise; an empty bucket makes the
reducer worker's exception abort the process. -/
theorem claim_C10_amended_witness :
    mainRun 3 "in" (some []) 1 1 = .exited (-1) true none ∧
    mainRun 4 "in" (some []) 1 1 = .exited 0 false (some .emptyInput) ∧
    mainRun 4 "in" (some ['a', '\n']) 1 (-1) = .exited 0 false (some .invalidArgument) ∧
    mainRun 4 "in" (some ['b', '\n']) 1 2 = .aborted .invalidArgument :=
  ⟨(claim_C10_exit_status_amended 3 "in" (some []) 1 1).2.1 (by omega),
    (claim_C10_exit_status_amended 4 "in" (some []) 1 1).2.2.1 .emptyInput rfl rfl,
    (claim_C10_exit_status_amended 4 "in" (some ['a', '\n']) 1 (-1)).2.2.2.2.1
      [0, 2] [["a"]] .invalidArgument rfl rfl rfl rfl,
    (claim_C10_exit_status_amended 4 "in" (some ['b', '\n']) 1 2).2.2.2.2.2
      [0, 2] [["b"]] [["b"], []] .invalidArgument rfl rfl rfl rfl rfl⟩

theorem getD_set_model {α : Type} (d : α) :
    ∀ (l : List α) (i j : Nat) (w : α),
      (l.set i w).getD j d = if j = i ∧ j < l.length then w else l.getD j d := by
  intro l
  induction l with
  | nil => intro i j w; simp
  | cons b l ih =>
    intro i j w
    cases i with
    | zero =>
      cases j with
      | zero => simp
      | succ j => simp
    | succ i =>
      cases j with
      | zero => simp
      | succ j =>
        simp only [List.set_cons_succ, List.getD_cons_succ, ih i j w,
          List.length_cons]
        by_cases hji : j = i
        · subst hji
          by_cases hl : j < l.length
          · rw [if_pos ⟨rfl, hl⟩, if_pos ⟨rfl, by omega⟩]
          · rw [if_neg (fun hna => hl hna.2), if_neg (fun hna => hl (by omega))]
        · rw [if_neg (fun hna => hji hna.1), if_neg (fun hna => hji (by omega))]

theorem length_foldl_set (v : Nat → List String) :
    ∀ (order : List Nat) (acc : List (List String)),
      (order.foldl (fun a i => a.set i (v i)) acc).length = acc.length := by
  intro order
  induction order with
  | nil => intro acc; rfl
  | cons g gs ih =>
    intro acc
    simp only [List.foldl_cons]
    rw [ih (acc.set g (v g)), List.length_set]

theorem getD_foldl_set (v : Nat → List String) :
    ∀ (order : List Nat) (acc : List (List String)) (j : Nat), j < acc.length →
      (order.foldl (fun a i => a.set i (v i)) acc).getD j [] =
        if j ∈ order then v j else acc.getD j [] := by
  intro order
  induction order with
  | nil => intro acc j _; simp
  | cons g gs ih =>
    intro acc j hj
    simp only [List.foldl_cons]
    rw [ih (acc.set g (v g)) j (by rw [List.length_set]; exact hj)]
    by_cases hgs : j ∈ gs
    · rw [if_pos hgs, if_pos (by simp [hgs])]
    · rw [if_neg hgs, getD_set_model]
      by_cases hjg : j = g
      · subst hjg
        rw [if_pos ⟨rfl, hj⟩, if_pos (by simp)]
      · rw [if_neg (fun hna => hjg hna.1), if_neg (by simp [hjg, hgs])]

theorem list_ext_getD {α : Type} (d : α) :
    ∀ (l1 l2 : List α), l1.length = l2.length →
      (∀ j, j < l1.length → l1.getD j d = l2.getD j d) → l1 = l2 := by
  intro l1
  induction l1 with
  | nil =>
    intro l2 hl _
    cases l2 with
    | nil => rfl
    | cons b l2 => simp at hl
  | cons a l1 ih =>
    intro l2 hl hg
    cases l2 with
    | nil => simp at hl
    | cons b l2 =>
      have h0 := hg 0 (by simp)
      simp only [List.getD_cons_zero] at h0
      subst h0
      congr 1
      refine ih l2 (by simpa using hl) ?_
      intro j hj
      have := hg (j + 1) (by simpa using hj)
      simpa using this

/-- The mapping phase result does not depend on the order in which the
worker slot writes happen: any complete schedule produces the per-index
results. -/
theorem runMappersIn_perm (path : String) (file : Option (List Char))
    (positions : List Int) (m : Nat) (order : List Nat)
    (h : order.Perm (List.range m)) :
    runMappersIn path file positions m order =
      (List.range m).map (mapResultOf path file positions) := by
  apply list_ext_getD ([] : List String)
  · rw [runMappersIn, length_foldl_set, List.length_replicate, List.length_map,
      List.length_range]
  · intro j hj
    have hjm : j < m := by
      rw [runMappersIn, length_foldl_set, List.length_replicate] at hj
      exact hj
    rw [runMappersIn, getD_foldl_set _ _ _ _ (by rw [List.length_replicate]; exact hjm)]
    rw [if_pos (h.mem_iff.mpr (List.mem_range.mpr hjm))]
    rw [List.getD_eq_getElem _ _ (by simpa using hjm), List.getElem_map,
      List.getElem_range]

/-- C6: the pipeline is deterministic; for fixed file content and fixed
mapper and reducer counts, the section boundaries are a pure function of
the input, and any two complete schedules of the mapper workers produce
identical mapper outputs and hence identical bucket assignments. -/
theorem claim_C6_determinism (path : String) (file : Option (List Char))
    (positions : List Int) (n r : Int) (m : Nat) (o1 o2 : List Nat)
    (h1 : o1.Perm (List.range m)) (h2 : o2.Perm (List.range m)) :
    SplitFileIntoSections path file n = SplitFileIntoSections path file n ∧
    runMappersIn path file positions m o1 = runMappersIn path file positions m o2 ∧
    Shuffle (runMappersIn path file positions m o1) r =
      Shuffle (runMappersIn path file positions m o2) r := by
  have e1 := runMappersIn_perm path file positions m o1 h1
  have e2 := runMappersIn_perm path file positions m o2 h2
  exact ⟨rfl, e1.trans e2.symm, by rw [e1, e2]⟩

/-- Witness for C6: the two schedules of two mapper workers on the file
`a`, `b` produce identical results. -/
theorem claim_C6_witness :
    ([1, 0].Perm (List.range 2)) ∧
    (SplitFileIntoSections "in" (some ['a', '\n', 'b', '\n']) 2 =
        SplitFileIntoSections "in" (some ['a', '\n', 'b', '\n']) 2 ∧
      runMappersIn "in" (some ['a', '\n', 'b', '\n']) [0, 2, 4] 2 [1, 0] =
        runMappersIn "in" (some ['a', '\n', 'b', '\n']) [0, 2, 4] 2 [0, 1] ∧
      Shuffle (runMappersIn "in" (some ['a', '\n', 'b', '\n']) [0, 2, 4] 2 [1, 0]) 2 =
        Shuffle (runMappersIn "in" (some ['a', '\n', 'b', '\n']) [0, 2, 4] 2 [0, 1]) 2) :=
  ⟨List.Perm.swap 0 1 [], claim_C6_determinism "in" (some ['a', '\n', 'b', '\n'])
    [0, 2, 4] 2 2 2 [1, 0] [0, 1] (List.Perm.swap 0 1 []) (List.Perm.refl _)⟩

theorem getD_drop (f : List Char) : ∀ (p d : Nat),
    (f.drop p).getD d 'a' = f.getD (p + d) 'a' := by
  induction f with
  | nil => intro p d; simp
  | cons c f ih =>
    intro p d
    cases p with
    | zero => simp
    | succ p =>
      rw [List.drop_succ_cons, ih p d, show p + 1 + d = (p + d) + 1 by omega,
        List.getD_cons_succ]

theorem findNlAux_spec : ∀ (l : List Char) (i j : Nat), findNlAux l i = some j →
    i ≤ j ∧ j - i < l.length ∧ l.getD (j - i) 'a' = '\n' ∧
      ∀ d, d < j - i → l.getD d 'a' ≠ '\n' := by
  intro l
  induction l with
  | nil => intro i j h; cases h
  | cons c cs ih =>
    intro i j h
    rw [findNlAux] at h
    by_cases hc : c = '\n'
    · rw [if_pos hc] at h
      cases h
      refine ⟨le_refl _, by simp, by simpa using hc, ?_⟩
      intro d hd
      omega
    · rw [if_neg hc] at h
      obtain ⟨h1, h2, h3, h4⟩ := ih (i + 1) j h
      have hji : j - i = (j - (i + 1)) + 1 := by omega
      refine ⟨by omega, by simp; omega, ?_, ?_⟩
      · rw [hji, List.getD_cons_succ]
        exact h3
      · intro d hd
        cases d with
        | zero => simpa using hc
        | succ d =>
          rw [List.getD_cons_succ]
          exact h4 d (by omega)

/-- Specification of `findNl`: the result is the first newline at or
after the start position. -/
theorem findNl_spec (f : List Char) (p j : Nat) (h : findNl f p = some j) :
    p ≤ j ∧ j < f.length ∧ f.getD j 'a' = '\n' ∧
      ∀ k, p ≤ k → k < j → f.getD k 'a' ≠ '\n' := by
  obtain ⟨h1, h2, h3, h4⟩ := findNlAux_spec (f.drop p) p j h
  rw [List.length_drop] at h2
  rw [getD_drop, show p + (j - p) = j by omega] at h3
  refine ⟨h1, by omega, h3, ?_⟩
  intro k hk1 hk2
  have := h4 (k - p) (by omega)
  rw [getD_drop, show p + (k - p) = k by omega] at this
  exact this

theorem findNlAux_exists : ∀ (l : List Char) (i : Nat), '\n' ∈ l →
    ∃ j, findNlAux l i = some j := by
  intro l
  induction l with
  | nil => intro i h; simp at h
  | cons c cs ih =>
    intro i h
    by_cases hc : c = '\n'
    · exact ⟨i, by rw [findNlAux, if_pos hc]⟩
    · have hmem : '\n' ∈ cs := by
        rcases List.mem_cons.mp h with h' | h'
        · exact absurd h'.symm hc
        · exact h'
      obtain ⟨j, hj⟩ := ih (i + 1) hmem
      exact ⟨j, by rw [findNlAux, if_neg hc]; exact hj⟩

/-- When the file ends with a line terminator, a terminator follows
every in-range position. -/
theorem findNl_exists (f : List Char) (p : Nat) (hp : p < f.length)
    (hterm : f.getD (f.length - 1) 'a' = '\n') :
    ∃ j, findNl f p = some j := by
  apply findNlAux_exists
  have hlen : f.length - 1 - p < (f.drop p).length := by
    rw [List.length_drop]; omega
  have hval : (f.drop p).getD (f.length - 1 - p) 'a' = '\n' := by
    rw [getD_drop, show p + (f.length - 1 - p) = f.length - 1 by omega]
    exact hterm
  rw [List.getD_eq_getElem _ _ hlen] at hval
  rw [← hval]
  exact List.getElem_mem hlen

/-- The first newline after a later position is not earlier. -/
theorem findNl_mono (f : List Char) (p1 p2 j1 j2 : Nat) (hp : p1 ≤ p2)
    (h1 : findNl f p1 = some j1) (h2 : findNl f p2 = some j2) : j1 ≤ j2 := by
  by_contra hlt
  obtain ⟨hp2, -, h2nl, -⟩ := findNl_spec f p2 j2 h2
  obtain ⟨-, -, -, hmin⟩ := findNl_spec f p1 j1 h1
  exact hmin j2 (by omega) (by omega) h2nl

theorem seekg_good (t : Int) (ht : 0 ≤ t) (st : IStream) (hf : st.fl = false) :
    seekg t st = ⟨t.toNat, false, false⟩ := by
  simp [seekg, hf, show ¬ t < 0 by omega]

theorem getline_found (f : List Char) (st : IStream) (hf : st.fl = false)
    (he : st.eof = false) (j : Nat) (hj : findNl f st.pos = some j) :
    getline f st = (some (sliceStr f st.pos j), ⟨j + 1, false, false⟩) := by
  obtain ⟨h1, h2, -, -⟩ := findNl_spec f st.pos j hj
  rw [getline, if_neg (by simp [hf, he]), if_pos (by omega), hj]
  simp [hf, he]

theorem tellg_good (p : Nat) : tellg ⟨p, false, false⟩ = ((p : Int), ⟨p, false, false⟩) :=
  rfl

/-- An inner target offset is strictly inside the file. -/
theorem target_lt (size nn k : Nat) (hs : 0 < size) (hk1 : 1 ≤ k)
    (hk2 : k ≤ nn - 1) : size / nn * k < size := by
  have h1 : size / nn * nn ≤ size := Nat.div_mul_le_self size nn
  have h2 : size / nn * k ≤ size / nn * (nn - 1) := Nat.mul_le_mul_left _ hk2
  have hnn2 : 2 ≤ nn := by omega
  have h3 : size / nn * (nn - 1) + size / nn = size / nn * nn := by
    rw [← Nat.mul_succ]
    congr 1
    omega
  by_cases hz : size / nn = 0
  · rw [hz, Nat.zero_mul]
    exact hs
  · calc size / nn * k ≤ size / nn * (nn - 1) := h2
      _ < size / nn * (nn - 1) + size / nn :=
          Nat.lt_add_of_pos_right (Nat.pos_of_ne_zero hz)
      _ = size / nn * nn := h3
      _ ≤ size := h1

/-- Characterization of the sectioner loop on a terminator-ended file:
when every target offset lies strictly inside the file, the stream stays
well-formed and the recorded boundary for counter `k` is the offset just
after the first terminator at or after target `ss * k`. -/
theorem splitLoop_good (f : List Char) (hterm : f.getD (f.length - 1) 'a' = '\n')
    (ss : Nat) :
    ∀ (cnt i : Nat) (st : IStream), st.eof = false → st.fl = false →
      (∀ k, i ≤ k → k < i + cnt → ss * k < f.length) →
      (splitLoop f ss i cnt st).1 =
        (List.range cnt).map (fun d => boundVal f (ss * (i + d))) := by
  intro cnt
  induction cnt with
  | zero => intro i st _ _ _; rfl
  | succ cnt ih =>
    intro i st he hf hbound
    obtain ⟨j, hj⟩ := findNl_exists f (ss * i) (hbound i (le_refl i) (by omega)) hterm
    have hseek : seekg ((ss * i : Nat) : Int) st = ⟨ss * i, false, false⟩ := by
      rw [seekg_good _ (Int.natCast_nonneg _) st hf, Int.toNat_natCast]
    have hget : getline f ⟨ss * i, false, false⟩ =
        (some (sliceStr f (ss * i) j), ⟨j + 1, false, false⟩) :=
      getline_found f ⟨ss * i, false, false⟩ rfl rfl j hj
    simp only [splitLoop, hseek, hget, tellg_good]
    rw [ih (i + 1) ⟨j + 1, false, false⟩ rfl rfl
      (fun k hk1 hk2 => hbound k (by omega) (by omega))]
    rw [List.range_succ_eq_map, List.map_cons, List.map_map]
    congr 1
    · rw [Nat.add_zero]
      simp [boundVal, hj]
    · apply List.map_congr_left
      intro d _
      simp only [Function.comp_apply]
      rw [show i + 1 + d = i + (d + 1) by omega]

/-- A successful run of the sectioner on a terminator-ended file, in
closed form. -/
theorem split_sections_closed (path : String) (f : List Char) (n : Int)
    (hp : path ≠ "") (hn : 0 < n) (hne : f ≠ [])
    (hterm : f.getD (f.length - 1) 'a' = '\n') :
    SplitFileIntoSections path (some f) n = .ok ((0 : Int) ::
      ((List.range (n.toNat - 1)).map
        (fun d => boundVal f (f.length / n.toNat * (1 + d)))
        ++ [(f.length : Int)])) := by
  have hsize : 0 < f.length := List.length_pos.mpr hne
  have hcond : ¬(path = "" ∨ n ≤ 0) := by push_neg; exact ⟨hp, by omega⟩
  have hne0 : ¬ f.length = 0 := by omega
  have hbound : ∀ k, 1 ≤ k → k < 1 + (n.toNat - 1) → f.length / n.toNat * k < f.length := by
    intro k hk1 hk2
    exact target_lt f.length n.toNat k hsize hk1 (by omega)
  have hloop := splitLoop_good f hterm (f.length / n.toNat) (n.toNat - 1) 1
    initStream rfl rfl hbound
  rw [SplitFileIntoSections.eq_def, if_neg hcond]
  show (if f.length = 0 then (Except.error Err.emptyInput : Except Err (List Int))
      else .ok ((0 : Int) ::
        ((splitLoop f (f.length / n.toNat) 1 (n.toNat - 1) initStream).1
          ++ [(f.length : Int)]))) = _
  rw [if_neg hne0, hloop]

/-- On a terminator-ended file an inner boundary exists, follows its
target, and stays inside the file. -/
theorem boundVal_bounds (f : List Char) (hterm : f.getD (f.length - 1) 'a' = '\n')
    (t : Nat) (ht : t < f.length) :
    ∃ j, findNl f t = some j ∧ boundVal f t = (j : Int) + 1 ∧ t ≤ j ∧ j < f.length := by
  obtain ⟨j, hj⟩ := findNl_exists f t ht hterm
  obtain ⟨h1, h2, -, -⟩ := findNl_spec f t j hj
  exact ⟨j, hj, by simp [boundVal, hj], h1, h2⟩

/-- Inner boundaries are monotone in the target offset. -/
theorem boundVal_mono (f : List Char) (hterm : f.getD (f.length - 1) 'a' = '\n')
    (t1 t2 : Nat) (h12 : t1 ≤ t2) (ht1 : t1 < f.length) (ht2 : t2 < f.length) :
    boundVal f t1 ≤ boundVal f t2 := by
  obtain ⟨j1, hj1, he1, -, -⟩ := boundVal_bounds f hterm t1 ht1
  obtain ⟨j2, hj2, he2, -, -⟩ := boundVal_bounds f hterm t2 ht2
  rw [he1, he2]
  have := findNl_mono f t1 t2 j1 j2 h12 hj1 hj2
  omega

/-- C5 (amended): for every non-empty file that ends with a line
terminator and every n with 0 < n, `SplitFileIntoSections` returns n+1
non-decreasing offsets where boundary 0 is offset 0, boundary n is the
file size, and every inner boundary i is the byte offset immediately
following the first line terminator at or after target offset
i * (file_size / n); on a file whose final line lacks a terminator the
original claim fails (see the counterexample). -/
theorem claim_C5_sectioner_amended (path : String) (f : List Char) (n : Int)
    (hp : path ≠ "") (hn : 0 < n) (hne : f ≠ [])
    (hterm : f.getD (f.length - 1) 'a' = '\n') :
    ∃ ps, SplitFileIntoSections path (some f) n = .ok ps ∧
      ps.length = n.toNat + 1 ∧
      ps.getD 0 0 = 0 ∧
      ps.getD n.toNat 0 = (f.length : Int) ∧
      (∀ i, 1 ≤ i → i < n.toNat →
        ∃ j, findNl f (f.length / n.toNat * i) = some j ∧
          ps.getD i 0 = (j : Int) + 1 ∧ f.getD j 'a' = '\n' ∧ j < f.length ∧
          ∀ k, f.length / n.toNat * i ≤ k → k < j → f.getD k 'a' ≠ '\n') ∧
      ps.Pairwise (· ≤ ·) := by
  have hsize : 0 < f.length := List.length_pos.mpr hne
  have hmemb : ∀ x ∈ (List.range (n.toNat - 1)).map
      (fun d => boundVal f (f.length / n.toNat * (1 + d))),
      0 ≤ x ∧ x ≤ (f.length : Int) := by
    intro x hx
    rcases List.mem_map.mp hx with ⟨d, hd, hxd⟩
    have hd' : d < n.toNat - 1 := List.mem_range.mp hd
    have ht : f.length / n.toNat * (1 + d) < f.length :=
      target_lt f.length n.toNat (1 + d) hsize (by omega) (by omega)
    obtain ⟨j, hj, he, hle, hlt⟩ := boundVal_bounds f hterm _ ht
    rw [← hxd, he]
    omega
  refine ⟨_, split_sections_closed path f n hp hn hne hterm, ?_, rfl, ?_, ?_, ?_⟩
  · simp
    omega
  · obtain ⟨m, hm⟩ : ∃ m, n.toNat = m + 1 := ⟨n.toNat - 1, by omega⟩
    rw [hm, List.getD_cons_succ, List.getD_append_right _ _ _ _ (by simp)]
    simp
  · intro i h1 h2
    obtain ⟨m, hm⟩ : ∃ m, i = m + 1 := ⟨i - 1, by omega⟩
    subst hm
    rw [List.getD_cons_succ,
      List.getD_append _ _ _ _ (by simp only [List.length_map, List.length_range]; omega),
      List.getD_eq_getElem _ _ (by simp only [List.length_map, List.length_range]; omega),
      List.getElem_map, List.getElem_range, show (1 : Nat) + m = m + 1 by omega]
    obtain ⟨j, hj⟩ := findNl_exists f (f.length / n.toNat * (m + 1))
      (target_lt f.length n.toNat (m + 1) hsize (by omega) (by omega)) hterm
    obtain ⟨hj1, hj2, hj3, hj4⟩ := findNl_spec f _ j hj
    exact ⟨j, hj, by simp [boundVal, hj], hj3, hj2, hj4⟩
  · rw [List.pairwise_cons]
    constructor
    · intro b hb
      rcases List.mem_append.mp hb with hb | hb
      · exact (hmemb b hb).1
      · rcases List.mem_singleton.mp hb with rfl
        exact Int.natCast_nonneg _
    · rw [List.pairwise_append]
      refine ⟨?_, by simp, ?_⟩
      · rw [List.pairwise_map]
        apply List.Pairwise.imp_of_mem ?_ (List.pairwise_lt_range _)
        intro d1 d2 hd1 hd2 hlt
        have hd1' : d1 < n.toNat - 1 := List.mem_range.mp hd1
        have hd2' : d2 < n.toNat - 1 := List.mem_range.mp hd2
        exact boundVal_mono f hterm _ _
          (Nat.mul_le_mul_left _ (by omega))
          (target_lt f.length n.toNat (1 + d1) hsize (by omega) (by omega))
          (target_lt f.length n.toNat (1 + d2) hsize (by omega) (by omega))
      · intro x hx y hy
        rcases List.mem_singleton.mp hy with rfl
        exact (hmemb x hx).2

/-- Counterexample to C5 as stated: on the two-byte file `ab`, whose
single line has no terminator, the sectioner records the `tellg` failure
value -1 as inner boundary, so the returned offsets are not
non-decreasing and no line terminator exists at or after the target
offset. -/
theorem claim_C5_counterexample :
    SplitFileIntoSections "in" (some ['a', 'b']) 2 = .ok [0, -1, 2] ∧
    ¬ ([0, -1, 2] : List Int).Pairwise (· ≤ ·) ∧
    findNl ['a', 'b'] (['a', 'b'].length / (2 : Int).toNat * 1) = none := by
  refine ⟨rfl, ?_, rfl⟩
  intro h
  have h0 := (List.pairwise_cons.mp h).1 (-1) (by simp)
  omega

/-- Witness for the amended C5 on the terminator-ended file `a` with two
sections. -/
theorem claim_C5_witness :
    SplitFileIntoSections "in" (some ['a', '\n']) 2 = .ok [0, 2, 2] ∧
    (∃ ps, SplitFileIntoSections "in" (some ['a', '\n']) 2 = .ok ps ∧
      ps.length = (2 : Int).toNat + 1 ∧
      ps.getD 0 0 = 0 ∧
      ps.getD (2 : Int).toNat 0 = (['a', '\n'].length : Int) ∧
      (∀ i, 1 ≤ i → i < (2 : Int).toNat →
        ∃ j, findNl ['a', '\n'] (['a', '\n'].length / (2 : Int).toNat * i) = some j ∧
          ps.getD i 0 = (j : Int) + 1 ∧ ['a', '\n'].getD j 'a' = '\n' ∧
          j < ['a', '\n'].length ∧
          ∀ k, ['a', '\n'].length / (2 : Int).toNat * i ≤ k → k < j →
            ['a', '\n'].getD k 'a' ≠ '\n') ∧
      ps.Pairwise (· ≤ ·)) :=
  ⟨rfl, claim_C5_sectioner_amended "in" ['a', '\n'] 2 (by simp) (by omega)
    (by simp) (by decide)⟩

/-- C4 is violated by the code: on the two-byte one-line file `ab` split
into two sections, the recorded boundaries are `0, -1, 2` (the `tellg`
failure value), both mapper outputs under the identity map are empty, so
the sum of mapper output sizes is 0 while the file has 1 line — the line
is dropped. -/
theorem claim_C4_coverage_bug :
    SplitFileIntoSections "in" (some ['a', 'b']) 2 = .ok [0, -1, 2] ∧
    mapAllGo "in" (some ['a', 'b']) [0, -1, 2] 0 2 = .ok [[], []] ∧
    (([[], []] : List (List String)).map List.length).sum = 0 ∧
    fileLines ['a', 'b'] = ["ab"] ∧
    (fileLines ['a', 'b']).length = 1 :=
  ⟨rfl, rfl, rfl, rfl, rfl⟩

/-- C3 is violated by the code: on the file `a`, `b`, `c`, `defgh`
(final line unterminated) with three mappers and one reducer the
pipeline reaches terminal success, yet the single output artifact holds
only the lines `a`, `b`; the lines `c` and `defgh` are silently lost, so
the multiset union of output lines differs from the input lines. -/
theorem claim_C3_roundtrip_bug :
    pipeline "in" (some ['a', '\n', 'b', '\n', 'c', '\n', 'd', 'e', 'f', 'g', 'h'])
      3 1 = .ok [["a", "b"]] ∧
    fileLines ['a', '\n', 'b', '\n', 'c', '\n', 'd', 'e', 'f', 'g', 'h'] =
      ["a", "b", "c", "defgh"] ∧
    ¬ (([["a", "b"]] : List (List String)).flatten.Perm
        (fileLines ['a', '\n', 'b', '\n', 'c', '\n', 'd', 'e', 'f', 'g', 'h'])) := by
  refine ⟨rfl, rfl, ?_⟩
  intro h
  have hl := h.length_eq
  rw [show fileLines ['a', '\n', 'b', '\n', 'c', '\n', 'd', 'e', 'f', 'g', 'h'] =
    ["a", "b", "c", "defgh"] from rfl] at hl
  simp at hl

example : SplitFileIntoSections "in" (some ['a', 'b']) 2 = .ok [0, -1, 2] := rfl

example : SplitFileIntoSections "in" (some ['a', '\n', 'b', '\n']) 2 = .ok [0, 4, 4] := rfl

example : Shuffle [["a", "b", "a", "c"]] 2 = .ok [["a", "a", "c"], ["b"]] := rfl

example : fileLines ['a', '\n', 'b'] = ["a", "b"] := rfl

example : MapSection "in" (some ['a', 'b']) 0 (-1) (some idMap) = .ok [] := rfl

example : MapSection "in" (some ['a', 'b']) (-1) 2 (some idMap) = .ok [] := rfl

end MapReduce
